import Mathlib

/-!
Verification of `find-duplicates.py`.

The script finds duplicate files by a three-stage pipeline: group by size,
then by a SHA-1 fingerprint of the first 1024 bytes, then by a SHA-1
fingerprint of the full content (read in 8192-byte chunks), keeping at each
stage only the files whose discriminator is shared, and finally printing the
surviving groups with a human-readable size.

Embedding conventions:
* File content is a byte sequence, `Bytes := List Nat`.
* The filesystem at one instant is `FS := String → Option Bytes`; `none`
  models a path that is unreadable (missing, permission denied, broken link).
  Pipeline stages that may observe the filesystem at different times take
  separate `FS` arguments, so races such as a file being deleted between the
  size probe and the fingerprint stages are expressible.
* Python code that can raise `OSError` (the bare `open` calls in
  `hash_first_1k_bytes` and `hash_file`) is embedded in `Except Unit`;
  `get_file_size` catches `OSError` itself and is embedded in `Option`.
* `hashlib.sha1` is an external library, modelled from the spec: a
  Fingerprint is "produced deterministically from a byte range" and
  "equality of fingerprints is used as a proxy for equality of the hashed
  byte range", so the digest is modelled as an injective function of the
  accumulated byte sequence (`sha1_hexdigest := id`), with `update`
  accumulating by concatenation.
* `list_files` wraps `os.walk`, an external collaborator ("PathEnumerator",
  out of scope per the spec); it is modelled from the spec as an abstract
  enumeration function `enum : String → List String` passed to
  `check_for_duplicates`.
* Python `dict` preserves first-insertion order of keys; `setdefault(k, [])
  .append(x)` is embedded as the insertion-ordered association list
  operation `groupUpd`.
-/

/-- A byte sequence: the content of a file. -/
abbrev Bytes := List Nat

/-- The filesystem at one instant: `none` means the path is unreadable. -/
abbrev FS := String → Option Bytes

/-- `get_file_size`: `os.path.getsize` inside `try/except OSError`, returning
`None` (here `none`) when the file is unreadable. -/
def get_file_size (fs : FS) (p : String) : Option Nat :=
  (fs p).map List.length

/-- Modelled from the spec: the state of a fresh `hashlib.sha1()` object, as
the byte sequence fed so far. -/
def sha1_init : Bytes := []

/-- Modelled from the spec: `sha1.update(chunk)` feeds further bytes. -/
def sha1_update (st chunk : Bytes) : Bytes := st ++ chunk

/-- Modelled from the spec: `sha1.hexdigest()`, an injective deterministic
digest of the accumulated byte sequence. -/
def sha1_hexdigest (st : Bytes) : Bytes := st

/-- `hash_first_1k_bytes`: SHA-1 of `f.read(1024)`, the first 1024 bytes.
The `open` call raises `OSError` (uncaught) when the path is unreadable. -/
def hash_first_1k_bytes (fs : FS) (p : String) : Except Unit Bytes :=
  match fs p with
  | none => .error ()
  | some c => .ok (sha1_hexdigest (sha1_update sha1_init (c.take 1024)))

/-- The chunked reading loop of `hash_file`:
`for chunk in iter(lambda: f.read(8192), b""): sha1.update(chunk)` followed by
`hexdigest()`. The chunk size is `k + 1` bytes, so it is positive by
construction; the source uses `k + 1 = 8192`. The loop is structurally
recursive on a fuel bounding the bytes still to read; each pass consumes at
least one byte, so with fuel initialised to the content length the
fuel-exhausted branch is never taken (and it is chosen so that the loop
digests `st ++ c` in every case). -/
def hash_file_loop (k : Nat) : Nat → Bytes → Bytes → Bytes
  | _, st, [] => sha1_hexdigest st
  | 0, st, c => sha1_hexdigest (st ++ c)
  | fuel + 1, st, c =>
    hash_file_loop k fuel (sha1_update st (c.take (k + 1))) (c.drop (k + 1))

/-- The chunked digest of a whole content `c`, chunk size `k + 1`. -/
def hash_file_chunks (k : Nat) (st : Bytes) (c : Bytes) : Bytes :=
  hash_file_loop k c.length st c

/-- `hash_file`: SHA-1 of the entire file, read in 8192-byte chunks. The
`open` call raises `OSError` (uncaught) when the path is unreadable. -/
def hash_file (fs : FS) (p : String) : Except Unit Bytes :=
  match fs p with
  | none => .error ()
  | some c => .ok (hash_file_chunks 8191 sha1_init c)

/-- `d.setdefault(k, []).append(x)` on an insertion-ordered dictionary: if `k`
is present its list is extended in place, otherwise `(k, [x])` is appended. -/
def groupUpd {K α : Type} [DecidableEq K] :
    List (K × List α) → K → α → List (K × List α)
  | [], k, x => [(k, [x])]
  | (k', g) :: m, k, x =>
    if k' = k then (k', g ++ [x]) :: m else (k', g) :: groupUpd m k x

/-- The grouping loop shared by the stages, for a total (non-raising) key
function: keys evaluating to `none` are skipped (the `if file_size:` branch
of `filter_files_by_size`). -/
def groupByKeyAux {K α : Type} [DecidableEq K] (key : α → Option K) :
    List α → List (K × List α) → List (K × List α)
  | [], m => m
  | x :: s, m =>
    match key x with
    | some k => groupByKeyAux key s (groupUpd m k x)
    | none => groupByKeyAux key s m

/-- Grouping a list by a key, starting from the empty dictionary. -/
def groupByKey {K α : Type} [DecidableEq K] (key : α → Option K)
    (s : List α) : List (K × List α) :=
  groupByKeyAux key s []

/-- The grouping loop for a key function that may raise (the hash stages):
the first raise aborts the whole loop, as in the source, which has no
`try/except` around the hash calls. -/
def groupByKeyE {K α : Type} [DecidableEq K] (key : α → Except Unit K) :
    List α → List (K × List α) → Except Unit (List (K × List α))
  | [], m => .ok m
  | x :: s, m =>
    match key x with
    | .error e => .error e
    | .ok k => groupByKeyE key s (groupUpd m k x)

/-- `[paths for paths in d.values() if len(paths) > 1]`: the groups of
cardinality at least 2, in key insertion order. -/
def keepDups {K α : Type} (m : List (K × List α)) : List (List α) :=
  (m.map Prod.snd).filter (fun g => 1 < g.length)

/-- One filtering stage: group by the key, keep the groups with more than one
member, and concatenate them (`duplicates.extend(paths)`). -/
def stageOut {K α : Type} [DecidableEq K] (key : α → Option K)
    (s : List α) : List α :=
  (keepDups (groupByKey key s)).flatten

/-- The discriminator of the size stage: `file_size = get_file_size(...)`
followed by the truthiness test `if file_size:`, which drops both `None`
(unreadable) and size `0` (falsy). -/
def key_size (fs : FS) (p : String) : Option Nat :=
  match get_file_size fs p with
  | some sz => if sz = 0 then none else some sz
  | none => none

/-- `filter_files_by_size`: group by size, keep files sharing their size. -/
def filter_files_by_size (fs : FS) (paths : List String) : List String :=
  stageOut (key_size fs) paths

/-- `filter_files_by_first_1k_bytes`: group by the hash of the first 1024
bytes, keep files sharing it; an unreadable file raises out of the loop. -/
def filter_files_by_first_1k_bytes (fs : FS) (paths : List String) :
    Except Unit (List String) :=
  match groupByKeyE (hash_first_1k_bytes fs) paths [] with
  | .error e => .error e
  | .ok m => .ok ((keepDups m).flatten)

/-- `group_files_by_full_hash`: group by the full-content hash and return the
groups of cardinality at least 2 themselves. -/
def group_files_by_full_hash (fs : FS) (paths : List String) :
    Except Unit (List (List String)) :=
  match groupByKeyE (hash_file fs) paths [] with
  | .error e => .error e
  | .ok m => .ok (keepDups m)

/-- The value of `hash_first_1k_bytes` as a total function of the filesystem:
`none` exactly when the file is unreadable. -/
def key_first_1k (fs : FS) (p : String) : Option Bytes :=
  (fs p).map (fun c => sha1_hexdigest (sha1_update sha1_init (c.take 1024)))

/-- The value of `hash_file` as a total function of the filesystem: `none`
exactly when the file is unreadable. -/
def key_full (fs : FS) (p : String) : Option Bytes :=
  (fs p).map (fun c => hash_file_chunks 8191 sha1_init c)

/-- The duplicate groups computed by the pipeline of `check_for_duplicates`
over a single (unchanging) filesystem: size stage, then first-1024-bytes
stage, then full-hash grouping. -/
def dup_groups (fs : FS) (paths : List String) : List (List String) :=
  keepDups (groupByKey (key_full fs)
    (stageOut (key_first_1k fs) (filter_files_by_size fs paths)))

/-- The unit suffixes of `file_size_string`. -/
def sizes_list : List String := ["B", "KB", "MB", "GB", "TB", "PB", "EB", "ZB", "YB"]

/-- `f"{n/d:.2f}"`: the quotient `n / d` (with `d > 0`) rendered with two
decimal places, rounding half to even as float formatting does. The float
arithmetic of the source is modelled exactly in rational arithmetic. -/
def format_two_dec (n d : Nat) : String :=
  let q := n * 100 / d
  let r := n * 100 % d
  let scaled := if 2 * r < d then q
    else if d < 2 * r then q + 1
    else if q % 2 = 0 then q else q + 1
  toString (scaled / 100) ++ "." ++
    (if scaled % 100 < 10 then "0" ++ toString (scaled % 100)
     else toString (scaled % 100))

/-- `file_size_string`: human-readable base-1000 size with two decimals.
`int(math.log(num_bytes, 1000))` is modelled exactly as `Nat.log 1000`. -/
def file_size_string (num_bytes : Nat) : String :=
  if num_bytes < 1000 then format_two_dec num_bytes 1 ++ "B"
  else
    format_two_dec num_bytes (1000 ^ Nat.log 1000 num_bytes) ++
      sizes_list.getD (Nat.log 1000 num_bytes) ""

/-- `print_duplicates`, as the list of lines written to standard output.
`files[0]` on an empty group raises `IndexError`; `get_file_size` returning
`None` makes `file_size_string(None)` raise `TypeError` (`None` is compared
against `1000`); either raise aborts the run, modelled by `.error ()`. -/
def print_duplicates (fs : FS) : List (List String) → Except Unit (List String)
  | [] => .ok []
  | g :: rest =>
    match g with
    | [] => .error ()
    | f0 :: _ =>
      match get_file_size fs f0 with
      | none => .error ()
      | some sz =>
        match print_duplicates fs rest with
        | .error e => .error e
        | .ok lines =>
          .ok ("Found duplicate files:" ::
            ("Size:  " ++ file_size_string sz) :: g ++ lines)

/-- `check_for_duplicates`: enumerate (`files.extend(list_files(path))`, with
`list_files`/`os.walk` modelled from the spec as the abstract enumerator
`enum`), then run the three stages and print. Each phase observes the
filesystem at its own time (`fs1` … `fs4`); the result is the list of output
lines, or `.error ()` if an uncaught exception aborted the run. -/
def check_for_duplicates (enum : String → List String)
    (fs1 fs2 fs3 fs4 : FS) (roots : List String) : Except Unit (List String) :=
  let files := (roots.map enum).flatten
  let files1 := filter_files_by_size fs1 files
  match filter_files_by_first_1k_bytes fs2 files1 with
  | .error e => .error e
  | .ok files2 =>
    match group_files_by_full_hash fs3 files2 with
    | .error e => .error e
    | .ok dups => print_duplicates fs4 dups

/-! ### Properties of the insertion-ordered grouping dictionary -/

/-- Lookup in the association list, returning `[]` for an absent key. -/
def lookupG {K α : Type} [DecidableEq K] (k : K) : List (K × List α) → List α
  | [] => []
  | (k', g) :: m => if k' = k then g else lookupG k m

/-- The keys of the association list, in insertion order. -/
def keysOf {K α : Type} (m : List (K × List α)) : List K := m.map Prod.fst

theorem lookupG_groupUpd {K α : Type} [DecidableEq K]
    (m : List (K × List α)) (k k' : K) (x : α) :
    lookupG k (groupUpd m k' x) =
      if k' = k then lookupG k m ++ [x] else lookupG k m := by
  induction m with
  | nil => by_cases h : k' = k <;> simp [groupUpd, lookupG, h]
  | cons q m ih =>
    obtain ⟨k₁, g₁⟩ := q
    by_cases h1 : k₁ = k' <;> by_cases h2 : k' = k <;>
      simp_all [groupUpd, lookupG]

theorem lookupG_groupByKeyAux {K α : Type} [DecidableEq K]
    (key : α → Option K) (s : List α) (k : K) :
    ∀ m, lookupG k (groupByKeyAux key s m) =
      lookupG k m ++ s.filter (fun x => decide (key x = some k)) := by
  induction s with
  | nil => intro m; simp [groupByKeyAux]
  | cons x s ih =>
    intro m
    simp only [groupByKeyAux]
    cases hx : key x with
    | none =>
      rw [ih]
      simp [List.filter_cons, hx]
    | some k' =>
      rw [ih, lookupG_groupUpd]
      by_cases hk : k' = k
      · subst hk
        simp [List.filter_cons, hx]
      · simp [List.filter_cons, hx, hk]

theorem lookupG_groupByKey {K α : Type} [DecidableEq K]
    (key : α → Option K) (s : List α) (k : K) :
    lookupG k (groupByKey key s) =
      s.filter (fun x => decide (key x = some k)) := by
  rw [groupByKey, lookupG_groupByKeyAux]
  simp [lookupG]

theorem keysOf_groupUpd {K α : Type} [DecidableEq K]
    (m : List (K × List α)) (k : K) (x : α) :
    keysOf (groupUpd m k x) =
      if k ∈ keysOf m then keysOf m else keysOf m ++ [k] := by
  induction m with
  | nil => simp [groupUpd, keysOf]
  | cons q m ih =>
    obtain ⟨k₁, g₁⟩ := q
    by_cases h : k₁ = k
    · subst h
      simp [groupUpd, keysOf]
    · have hne : k ≠ k₁ := fun hh => h hh.symm
      simp only [groupUpd, if_neg h, keysOf, List.map_cons] at ih ⊢
      rw [ih]
      by_cases hm : k ∈ List.map Prod.fst m <;>
        simp [hm, List.mem_cons, hne]

theorem nodup_keysOf_groupUpd {K α : Type} [DecidableEq K]
    {m : List (K × List α)} (k : K) (x : α)
    (h : (keysOf m).Nodup) : (keysOf (groupUpd m k x)).Nodup := by
  rw [keysOf_groupUpd]
  split_ifs with hm
  · exact h
  · simp [List.nodup_append, h, hm]

theorem nodup_keysOf_groupByKeyAux {K α : Type} [DecidableEq K]
    (key : α → Option K) (s : List α) :
    ∀ m : List (K × List α), (keysOf m).Nodup →
      (keysOf (groupByKeyAux key s m)).Nodup := by
  induction s with
  | nil => intro m h; exact h
  | cons x s ih =>
    intro m h
    simp only [groupByKeyAux]
    cases key x with
    | none => exact ih m h
    | some k => exact ih _ (nodup_keysOf_groupUpd k x h)

theorem nodup_keysOf_groupByKey {K α : Type} [DecidableEq K]
    (key : α → Option K) (s : List α) :
    (keysOf (groupByKey key s)).Nodup :=
  nodup_keysOf_groupByKeyAux key s [] (by simp [keysOf])

theorem lookupG_of_mem {K α : Type} [DecidableEq K]
    {m : List (K × List α)} {k : K} {g : List α}
    (hn : (keysOf m).Nodup) (hm : (k, g) ∈ m) : lookupG k m = g := by
  induction m with
  | nil => cases hm
  | cons q m ih =>
    obtain ⟨k₁, g₁⟩ := q
    simp only [keysOf, List.map_cons, List.nodup_cons] at hn
    rcases List.mem_cons.mp hm with h | h
    · cases h
      simp [lookupG]
    · by_cases he : k₁ = k
      · subst he
        exact absurd (List.mem_map_of_mem Prod.fst h) hn.1
      · simp only [lookupG, if_neg he]
        exact ih hn.2 h

theorem exists_of_mem_keysOf {K α : Type} {m : List (K × List α)} {k : K}
    (h : k ∈ keysOf m) : ∃ g, (k, g) ∈ m := by
  obtain ⟨⟨k₁, g₁⟩, hmem, rfl⟩ := List.mem_map.mp h
  exact ⟨g₁, hmem⟩

theorem mem_keysOf_of_lookupG_ne {K α : Type} [DecidableEq K]
    {m : List (K × List α)} {k : K}
    (h : lookupG k m ≠ []) : k ∈ keysOf m := by
  induction m with
  | nil => simp [lookupG] at h
  | cons q m ih =>
    obtain ⟨k₁, g₁⟩ := q
    simp only [lookupG] at h
    by_cases he : k₁ = k
    · simp [keysOf, he]
    · rw [if_neg he] at h
      exact List.mem_cons_of_mem k₁ (ih h)

theorem lookupG_eq_nil_of_not_mem {K α : Type} [DecidableEq K]
    {m : List (K × List α)} {k : K}
    (h : k ∉ keysOf m) : lookupG k m = [] := by
  by_contra hne
  exact h (mem_keysOf_of_lookupG_ne hne)

/-- The char of every bucket of the grouping dictionary: the bucket of a key
is the input filtered to the elements mapped to that key, in input order. -/
theorem snd_eq_filter_of_mem_groupByKey {K α : Type} [DecidableEq K]
    {key : α → Option K} {s : List α} {q : K × List α}
    (hq : q ∈ groupByKey key s) :
    q.2 = s.filter (fun x => decide (key x = some q.1)) := by
  obtain ⟨k, g⟩ := q
  have := lookupG_of_mem (nodup_keysOf_groupByKey key s) hq
  rw [← this, lookupG_groupByKey]

/-- Master lemma: filtering the concatenated stage output by a predicate that
pins the key down to `k` yields the filtered input when the bucket of `k` is
kept, and nothing otherwise. Stated over any dictionary whose buckets are the
corresponding input filters. -/
theorem filter_flatten_keepDups {K α : Type} [DecidableEq K]
    (key : α → Option K) (s : List α) (p : α → Bool) (k : K)
    (hp : ∀ x, p x = true → key x = some k) :
    ∀ m : List (K × List α), (keysOf m).Nodup →
      (∀ q ∈ m, q.2 = s.filter (fun x => decide (key x = some q.1))) →
      ((keepDups m).flatten).filter p =
        if k ∈ keysOf m ∧
            1 < (s.filter (fun x => decide (key x = some k))).length
        then s.filter p else [] := by
  intro m
  induction m with
  | nil =>
    intro _ _
    simp [keepDups, keysOf]
  | cons q m ih =>
    intro hn hchar
    obtain ⟨k₁, g₁⟩ := q
    simp only [keysOf, List.map_cons, List.nodup_cons] at hn
    have hg₁ : g₁ = s.filter (fun x => decide (key x = some k₁)) :=
      hchar (k₁, g₁) (List.mem_cons_self _ _)
    have hrest := ih hn.2 (fun q hq => hchar q (List.mem_cons_of_mem _ hq))
    by_cases he : k₁ = k
    · subst he
      have hp₁ : List.filter p g₁ = s.filter p := by
        rw [hg₁, List.filter_filter]
        apply List.filter_congr
        intro x _
        cases hpx : p x
        · simp
        · simp [hp x hpx]
      have hnotm : k₁ ∉ keysOf m := hn.1
      have hrest0 : ((keepDups m).flatten).filter p = [] := by
        rw [hrest]
        simp [hnotm]
      by_cases hlen : 1 < g₁.length
      · have : keepDups ((k₁, g₁) :: m) = g₁ :: keepDups m := by
          simp [keepDups, List.filter_cons, hlen]
        rw [this]
        simp only [List.flatten_cons, List.filter_append, hp₁, hrest0,
          List.append_nil]
        rw [hg₁] at hlen
        simp [keysOf, hlen]
      · have : keepDups ((k₁, g₁) :: m) = keepDups m := by
          simp [keepDups, List.filter_cons, hlen]
        rw [this, hrest0]
        rw [hg₁] at hlen
        simp [keysOf, hlen]
    · have hkk₁ : k ≠ k₁ := fun hh => he hh.symm
      have hp₁ : List.filter p g₁ = [] := by
        rw [hg₁, List.filter_filter]
        apply List.filter_eq_nil_iff.mpr
        intro a _
        cases hpa : p a
        · simp
        · have hka := hp a hpa
          simp [hka, hkk₁]
      have hkeys : k ∈ keysOf ((k₁, g₁) :: m) ↔ k ∈ keysOf m := by
        simp [keysOf, List.mem_cons, hkk₁]
      by_cases hlen : 1 < g₁.length
      · have : keepDups ((k₁, g₁) :: m) = g₁ :: keepDups m := by
          simp [keepDups, List.filter_cons, hlen]
        rw [this]
        simp only [List.flatten_cons, List.filter_append, hp₁,
          List.nil_append, hrest, hkeys]
      · have : keepDups ((k₁, g₁) :: m) = keepDups m := by
          simp [keepDups, List.filter_cons, hlen]
        rw [this, hrest]
        simp only [hkeys]

/-- Filtering a stage's output by a predicate that pins the key down to `k`:
either the whole bucket of `k` surfaced, or nothing did. -/
theorem filter_stageOut {K α : Type} [DecidableEq K]
    (key : α → Option K) (s : List α) (p : α → Bool) (k : K)
    (hp : ∀ x, p x = true → key x = some k) :
    (stageOut key s).filter p =
      if 1 < (s.filter (fun x => decide (key x = some k))).length
      then s.filter p else [] := by
  have hm := filter_flatten_keepDups key s p k hp (groupByKey key s)
    (nodup_keysOf_groupByKey key s)
    (fun q hq => snd_eq_filter_of_mem_groupByKey hq)
  by_cases hk : k ∈ keysOf (groupByKey key s)
  · rw [stageOut, hm]
    simp [hk]
  · have hB : s.filter (fun x => decide (key x = some k)) = [] := by
      rw [← lookupG_groupByKey key s k]
      exact lookupG_eq_nil_of_not_mem hk
    rw [stageOut, hm, hB]
    simp [hk]

/-- Membership in a stage's output: the file's key is defined, the file was
in the input, and its bucket has at least two members. -/
theorem mem_stageOut {K α : Type} [DecidableEq K]
    {key : α → Option K} {s : List α} {x : α} :
    x ∈ stageOut key s ↔
      ∃ k, key x = some k ∧ x ∈ s ∧
        1 < (s.filter (fun y => decide (key y = some k))).length := by
  constructor
  · intro hx
    obtain ⟨g, hg, hxg⟩ := List.mem_flatten.mp hx
    obtain ⟨hgmem, hglen⟩ := List.mem_filter.mp hg
    obtain ⟨⟨k, g'⟩, hq, rfl⟩ := List.mem_map.mp hgmem
    have hper : g' = s.filter (fun y => decide (key y = some k)) :=
      snd_eq_filter_of_mem_groupByKey hq
    rw [hper] at hxg hglen
    obtain ⟨hxs, hkey⟩ := List.mem_filter.mp hxg
    refine ⟨k, by simpa using hkey, hxs, by simpa using hglen⟩
  · rintro ⟨k, hkx, hxs, hlen⟩
    have hx_b : x ∈ s.filter (fun y => decide (key y = some k)) :=
      List.mem_filter.mpr ⟨hxs, by simp [hkx]⟩
    have hne : lookupG k (groupByKey key s) ≠ [] := by
      rw [lookupG_groupByKey]
      exact List.ne_nil_of_mem hx_b
    obtain ⟨g, hg⟩ := exists_of_mem_keysOf (mem_keysOf_of_lookupG_ne hne)
    have hgf : g = s.filter (fun y => decide (key y = some k)) :=
      snd_eq_filter_of_mem_groupByKey (q := (k, g)) hg
    apply List.mem_flatten.mpr
    refine ⟨g, List.mem_filter.mpr ⟨List.mem_map.mpr ⟨(k, g), hg, rfl⟩, ?_⟩, ?_⟩
    · rw [hgf]
      simpa using hlen
    · rw [hgf]
      exact hx_b

/-- A file whose key is undefined (unreadable, or falsy size) never survives
the stage. -/
theorem not_mem_stageOut_of_none {K α : Type} [DecidableEq K]
    {key : α → Option K} {s : List α} {x : α}
    (hk : key x = none) : x ∉ stageOut key s := by
  intro hx
  obtain ⟨k, hkk, -, -⟩ := mem_stageOut.mp hx
  rw [hk] at hkk
  cases hkk

/-- Multiplicity through a stage: a surviving file keeps its full input
multiplicity; a dropped file disappears. -/
theorem count_stageOut {K α : Type} [DecidableEq K] [DecidableEq α]
    {key : α → Option K} (s : List α) (x : α) (k : K)
    (hk : key x = some k) :
    (stageOut key s).count x =
      if 1 < (s.filter (fun y => decide (key y = some k))).length
      then s.count x else 0 := by
  have hp : ∀ y, (y == x) = true → key y = some k := by
    intro y hy
    rw [eq_of_beq hy, hk]
  have hfs := filter_stageOut key s (fun y => y == x) k hp
  rw [List.count_eq_countP, List.countP_eq_length_filter, hfs]
  split_ifs with h
  · rw [← List.countP_eq_length_filter, ← List.count_eq_countP]
  · rfl

/-- Two distinct members force length at least two. -/
theorem one_lt_length_of_two_mem {α : Type} {l : List α} {a b : α}
    (ha : a ∈ l) (hb : b ∈ l) (hab : a ≠ b) : 1 < l.length := by
  match l with
  | [] => cases ha
  | [x] =>
    simp only [List.mem_singleton] at ha hb
    exact absurd (ha.trans hb.symm) hab
  | x :: y :: t =>
    simp only [List.length_cons]
    omega

/-! ### The raising stages agree with the total-key stages on readable input -/

theorem groupByKeyE_eq_ok {K α : Type} [DecidableEq K]
    {keyE : α → Except Unit K} {keyO : α → Option K} {s : List α}
    (h : ∀ x ∈ s, ∃ k, keyE x = .ok k ∧ keyO x = some k) :
    ∀ m, groupByKeyE keyE s m = .ok (groupByKeyAux keyO s m) := by
  induction s with
  | nil => intro m; rfl
  | cons x s ih =>
    intro m
    obtain ⟨k, hE, hO⟩ := h x (List.mem_cons_self x s)
    simp only [groupByKeyE, groupByKeyAux, hE, hO]
    exact ih (fun y hy => h y (List.mem_cons_of_mem _ hy)) _

theorem filter_first_1k_ok {fs : FS} {s : List String}
    (h : ∀ x ∈ s, fs x ≠ none) :
    filter_files_by_first_1k_bytes fs s =
      .ok (stageOut (key_first_1k fs) s) := by
  have hE : ∀ x ∈ s, ∃ k, hash_first_1k_bytes fs x = .ok k ∧
      key_first_1k fs x = some k := by
    intro x hx
    cases hfx : fs x with
    | none => exact absurd hfx (h x hx)
    | some c =>
      refine ⟨sha1_hexdigest (sha1_update sha1_init (c.take 1024)), ?_, ?_⟩
      · simp [hash_first_1k_bytes, hfx]
      · simp [key_first_1k, hfx]
  rw [filter_files_by_first_1k_bytes, groupByKeyE_eq_ok hE]
  rfl

theorem group_full_ok {fs : FS} {s : List String}
    (h : ∀ x ∈ s, fs x ≠ none) :
    group_files_by_full_hash fs s =
      .ok (keepDups (groupByKey (key_full fs) s)) := by
  have hE : ∀ x ∈ s, ∃ k, hash_file fs x = .ok k ∧
      key_full fs x = some k := by
    intro x hx
    cases hfx : fs x with
    | none => exact absurd hfx (h x hx)
    | some c =>
      refine ⟨hash_file_chunks 8191 sha1_init c, ?_, ?_⟩
      · simp [hash_file, hfx]
      · simp [key_full, hfx]
  rw [group_files_by_full_hash, groupByKeyE_eq_ok hE]
  rfl

theorem readable_of_mem_size_stage {fs : FS} {paths : List String} {x : String}
    (h : x ∈ filter_files_by_size fs paths) : fs x ≠ none := by
  obtain ⟨k, hk, -, -⟩ := mem_stageOut.mp h
  intro hnone
  simp [key_size, get_file_size, hnone] at hk

theorem readable_of_mem_first1k_stage {fs : FS} {s : List String} {x : String}
    (h : x ∈ stageOut (key_first_1k fs) s) : fs x ≠ none := by
  obtain ⟨k, hk, -, -⟩ := mem_stageOut.mp h
  intro hnone
  simp [key_first_1k, hnone] at hk

/-- Over a single (unchanging) filesystem the raising pipeline never raises,
and its result is `dup_groups`. -/
theorem pipeline_ok (fs : FS) (paths : List String) :
    filter_files_by_first_1k_bytes fs (filter_files_by_size fs paths) =
      .ok (stageOut (key_first_1k fs) (filter_files_by_size fs paths)) ∧
    group_files_by_full_hash fs
        (stageOut (key_first_1k fs) (filter_files_by_size fs paths)) =
      .ok (dup_groups fs paths) := by
  refine ⟨filter_first_1k_ok (fun x hx => readable_of_mem_size_stage hx), ?_⟩
  exact group_full_ok (fun x hx => readable_of_mem_first1k_stage hx)

/-! ### The chunked digest -/

theorem hash_file_loop_eq (k : Nat) :
    ∀ (fuel : Nat) (st c : Bytes),
      hash_file_loop k fuel st c = sha1_hexdigest (st ++ c) := by
  intro fuel
  induction fuel with
  | zero =>
    intro st c
    cases c <;> simp [hash_file_loop, sha1_hexdigest]
  | succ fuel ih =>
    intro st c
    cases c with
    | nil => simp [hash_file_loop, sha1_hexdigest]
    | cons b cs =>
      rw [show hash_file_loop k (fuel + 1) st (b :: cs) =
          hash_file_loop k fuel (sha1_update st ((b :: cs).take (k + 1)))
            ((b :: cs).drop (k + 1)) from rfl, ih]
      simp [sha1_update, sha1_hexdigest, List.append_assoc]

/-- Feeding a byte sequence to the digest in sequential chunks of any
positive size `k + 1` is the same as feeding it whole. -/
theorem hash_file_chunks_eq (k : Nat) (st c : Bytes) :
    hash_file_chunks k st c = sha1_hexdigest (st ++ c) :=
  hash_file_loop_eq k c.length st c

theorem key_full_eq (fs : FS) (p : String) : key_full fs p = fs p := by
  cases h : fs p <;>
    simp [key_full, h, hash_file_chunks_eq, sha1_hexdigest, sha1_init]

theorem key_first_1k_eq (fs : FS) (p : String) :
    key_first_1k fs p = (fs p).map (fun c => c.take 1024) := by
  cases h : fs p <;>
    simp [key_first_1k, h, sha1_hexdigest, sha1_update, sha1_init]

/-! ### Helper lemmas about the discriminators -/

theorem get_file_size_of_key_size {fs : FS} {x : String} {k : Nat}
    (h : key_size fs x = some k) : get_file_size fs x = some k := by
  cases hs : get_file_size fs x with
  | none => simp [key_size, hs] at h
  | some sz =>
    simp only [key_size, hs] at h
    by_cases h0 : sz = 0
    · simp [h0] at h
    · simp only [if_neg h0, Option.some.injEq] at h
      rw [h]

theorem key_size_of_content {fs : FS} {x : String} {c : Bytes}
    (hc : fs x = some c) (hne : c ≠ []) : key_size fs x = some c.length := by
  have h0 : c.length ≠ 0 := fun h => hne (List.length_eq_zero.mp h)
  simp [key_size, get_file_size, hc, h0]

theorem key_size_none_of_empty {fs : FS} {x : String}
    (hc : fs x = some []) : key_size fs x = none := by
  simp [key_size, get_file_size, hc]

theorem key_first_1k_of_content {fs : FS} {x : String} {c : Bytes}
    (hc : fs x = some c) : key_first_1k fs x = some (c.take 1024) := by
  rw [key_first_1k_eq, hc]
  rfl

theorem key_full_of_content {fs : FS} {x : String} {c : Bytes}
    (hc : fs x = some c) : key_full fs x = some c := by
  rw [key_full_eq, hc]

theorem size_eq_of_key_full_eq {fs : FS} {x y : String}
    (h : key_full fs x = key_full fs y) :
    get_file_size fs x = get_file_size fs y := by
  rw [key_full_eq, key_full_eq] at h
  unfold get_file_size
  rw [h]

/-- One stage's narrowing and sharing invariant: every survivor was in the
input and shares its discriminator with another survivor. -/
theorem stage_invariant {K α : Type} [DecidableEq K] (key : α → Option K)
    (s : List α) (x : α) (hx : x ∈ stageOut key s) :
    x ∈ s ∧
      1 < ((stageOut key s).filter
        (fun y => decide (key y = key x))).length := by
  obtain ⟨k, hk, hxs, hlen⟩ := mem_stageOut.mp hx
  refine ⟨hxs, ?_⟩
  have hp : ∀ y, decide (key y = key x) = true → key y = some k := by
    intro y hy
    rw [decide_eq_true_eq] at hy
    rw [hy, hk]
  have hfs := filter_stageOut key s (fun y => decide (key y = key x)) k hp
  rw [hfs, if_pos hlen]
  have hcong : s.filter (fun y => decide (key y = key x)) =
      s.filter (fun y => decide (key y = some k)) := by
    apply List.filter_congr
    intro y _
    rw [hk]
  rw [hcong]
  exact hlen

/-- Unpacking a reported group: it is the bucket of its full-content key
over the second stage's survivors. -/
theorem dup_groups_char {fs : FS} {paths : List String} {g : List String}
    (hg : g ∈ dup_groups fs paths) :
    1 < g.length ∧ ∃ kf, g =
      (stageOut (key_first_1k fs) (filter_files_by_size fs paths)).filter
        (fun y => decide (key_full fs y = some kf)) := by
  obtain ⟨hgm, hglen⟩ := List.mem_filter.mp hg
  obtain ⟨⟨kf, g'⟩, hq, rfl⟩ := List.mem_map.mp hgm
  refine ⟨by simpa using hglen, kf, ?_⟩
  exact snd_eq_filter_of_mem_groupByKey hq

/-! ### Concrete fixtures for witnesses and counterexamples -/

instance instDecEqExcept {e a : Type} [DecidableEq e] [DecidableEq a] :
    DecidableEq (Except e a) := fun x y =>
  match x, y with
  | .error u, .error v =>
    if h : u = v then .isTrue (by rw [h])
    else .isFalse (fun hh => h (Except.error.inj hh))
  | .ok u, .ok v =>
    if h : u = v then .isTrue (by rw [h])
    else .isFalse (fun hh => h (Except.ok.inj hh))
  | .error _, .ok _ => .isFalse (fun hh => Except.noConfusion hh)
  | .ok _, .error _ => .isFalse (fun hh => Except.noConfusion hh)

/-- Two one-byte files with equal content. -/
def fsAB : FS := fun p =>
  if p = "a" then some [1] else if p = "b" then some [1] else none

/-- Two zero-byte files. -/
def fsEmpty2 : FS := fun p =>
  if p = "a" then some [] else if p = "b" then some [] else none

/-- The filesystem after file `a` has been deleted: only `b` remains. -/
def fsGone : FS := fun p => if p = "b" then some [1] else none

/-- An enumerator listing the two files of the fixtures under any root. -/
def enumR : String → List String := fun _ => ["a", "b"]

/-- An enumerator listing the single file `a` under any root. -/
def enumA : String → List String := fun _ => ["a"]

/-- A single readable one-byte file `a`. -/
def fsA1 : FS := fun p => if p = "a" then some [1] else none

/-- A single zero-byte file `z`. -/
def fsZ : FS := fun p => if p = "z" then some [] else none

/-- A filesystem on which every path is unreadable. -/
def fsNone : FS := fun _ => none

/-- Two pairs of identical files whose first 1024 bytes all agree but whose
sizes differ across the pairs: `a1`, `a2` are 1025 zero bytes; `b1`, `b2`
are 1026 zero bytes. -/
def fsPfx : FS := fun p =>
  if p = "a1" ∨ p = "a2" then some (List.replicate 1025 0)
  else if p = "b1" ∨ p = "b2" then some (List.replicate 1026 0)
  else none

/-! ### Claims -/

/-- C1 (code bug): the spec promises that a file becoming unreadable at any
stage is silently dropped and the run completes, but the hash stages have no
`try/except`: with files `a`, `b` of equal size readable at the size probe
(both survive it, second conjunct) and `a` deleted before the
first-1024-bytes stage, the `open` inside `hash_first_1k_bytes` raises and
the whole run aborts with the error instead of reporting `b`'s group. -/
theorem c1_unreadable_after_size_probe_aborts :
    check_for_duplicates enumR fsAB fsGone fsGone fsGone ["r"] = .error () ∧
    filter_files_by_size fsAB ["a", "b"] = ["a", "b"] := by decide

/-- C5: the size formatter is base 1000 with units `B` … `YB` and two
decimal places: `0 ↦ "0.00B"`, `999 ↦ "999.00B"`, `1000 ↦ "1.00KB"`,
`1000000 ↦ "1.00MB"` (and `512 ↦ "512.00B"`). -/
theorem c5_file_size_string_values :
    file_size_string 0 = "0.00B" ∧ file_size_string 999 = "999.00B" ∧
    file_size_string 1000 = "1.00KB" ∧ file_size_string 1000000 = "1.00MB" ∧
    file_size_string 512 = "512.00B" ∧
    sizes_list = ["B", "KB", "MB", "GB", "TB", "PB", "EB", "ZB", "YB"] := by
  have h1 : Nat.log 1000 1000 = 1 :=
    Nat.log_eq_of_pow_le_of_lt_pow (by norm_num) (by norm_num)
  have h2 : Nat.log 1000 1000000 = 2 :=
    Nat.log_eq_of_pow_le_of_lt_pow (by norm_num) (by norm_num)
  refine ⟨by decide, by decide, ?_, ?_, by decide, rfl⟩
  · rw [file_size_string, if_neg (by norm_num), h1]
    decide
  · rw [file_size_string, if_neg (by norm_num), h2]
    decide

/-- C6: the full fingerprint is a deterministic function of the complete
byte sequence alone: digesting any content in sequential bounded chunks of
any positive size `k + 1` (the source uses 8192) equals digesting it in one
pass, and `hash_file` is the `k + 1 = 8192` instance of the chunked loop. -/
theorem c6_fingerprint_chunk_independent :
    (∀ (c : Bytes) (k : Nat),
      hash_file_chunks k sha1_init c =
        sha1_hexdigest (sha1_update sha1_init c)) ∧
    ∀ (fs : FS) (p : String), hash_file fs p =
      match fs p with
      | none => .error ()
      | some c => .ok (sha1_hexdigest (sha1_update sha1_init c)) := by
  constructor
  · intro c k
    rw [hash_file_chunks_eq]
    rfl
  · intro fs p
    rw [hash_file]
    cases fs p with
    | none => rfl
    | some c =>
      show Except.ok (hash_file_chunks 8191 sha1_init c) =
        Except.ok (sha1_hexdigest (sha1_update sha1_init c))
      rw [hash_file_chunks_eq]
      rfl

/-- C7: the truthiness test `if file_size:` drops size-0 files at the size
stage, so a zero-byte file never survives it and never occurs in any
reported duplicate group. -/
theorem c7_zero_byte_never_reported (fs : FS) (paths : List String)
    (p : String) (h : get_file_size fs p = some 0) :
    p ∉ filter_files_by_size fs paths ∧
      ∀ g ∈ dup_groups fs paths, p ∉ g := by
  have hc : fs p = some [] := by
    cases hf : fs p with
    | none => simp [get_file_size, hf] at h
    | some c =>
      simp only [get_file_size, hf, Option.map_some', Option.some.injEq] at h
      rw [List.length_eq_zero.mp h]
  have hk : key_size fs p = none := key_size_none_of_empty hc
  refine ⟨not_mem_stageOut_of_none hk, ?_⟩
  intro g hg hpg
  obtain ⟨-, kf, hgf⟩ := dup_groups_char hg
  rw [hgf] at hpg
  have hps2 := (List.mem_filter.mp hpg).1
  obtain ⟨k2, hk2, hp_s1, -⟩ := mem_stageOut.mp hps2
  exact not_mem_stageOut_of_none hk hp_s1

/-- Witness for C7 at a concrete zero-byte file listed twice. -/
theorem c7_witness :
    get_file_size fsZ "z" = some 0 ∧
      ("z" ∉ filter_files_by_size fsZ ["z", "z"] ∧
        ∀ g ∈ dup_groups fsZ ["z", "z"], "z" ∉ g) :=
  ⟨by decide, c7_zero_byte_never_reported fsZ ["z", "z"] "z" (by decide)⟩

/-- C2 counterexample: two zero-byte files with byte-for-byte identical
(empty) content, both enumerated and readable throughout, are reported in no
group at all — the claim's "including the case where both files are empty"
is false on the code, which drops size-0 files at the size stage. -/
theorem c2_counterexample_empty_files :
    fsEmpty2 "a" = some [] ∧ fsEmpty2 "b" = some [] ∧
    ¬ ∃ g ∈ dup_groups fsEmpty2 ["a", "b"], "a" ∈ g ∧ "b" ∈ g := by decide

/-- C2 (amended): two distinct enumerated files with identical *non-empty*
content, readable throughout the run, end up together in one reported
duplicate group (zero-byte files are excluded at the size stage, see C7). -/
theorem c2_identical_content_same_group (fs : FS) (paths : List String)
    (A B : String) (c : Bytes) (hAB : A ≠ B) (hA : A ∈ paths)
    (hB : B ∈ paths) (hcA : fs A = some c) (hcB : fs B = some c)
    (hc : c ≠ []) :
    ∃ g ∈ dup_groups fs paths, A ∈ g ∧ B ∈ g := by
  have hkA := key_size_of_content hcA hc
  have hkB := key_size_of_content hcB hc
  have hbucket1 : 1 < (paths.filter
      (fun y => decide (key_size fs y = some c.length))).length := by
    refine one_lt_length_of_two_mem ?_ ?_ hAB
    · exact List.mem_filter.mpr ⟨hA, by simp [hkA]⟩
    · exact List.mem_filter.mpr ⟨hB, by simp [hkB]⟩
  have hAs1 : A ∈ filter_files_by_size fs paths :=
    mem_stageOut.mpr ⟨c.length, hkA, hA, hbucket1⟩
  have hBs1 : B ∈ filter_files_by_size fs paths :=
    mem_stageOut.mpr ⟨c.length, hkB, hB, hbucket1⟩
  have hk2A := key_first_1k_of_content hcA
  have hk2B := key_first_1k_of_content hcB
  have hbucket2 : 1 < ((filter_files_by_size fs paths).filter
      (fun y => decide (key_first_1k fs y = some (c.take 1024)))).length := by
    refine one_lt_length_of_two_mem ?_ ?_ hAB
    · exact List.mem_filter.mpr ⟨hAs1, by simp [hk2A]⟩
    · exact List.mem_filter.mpr ⟨hBs1, by simp [hk2B]⟩
  have hAs2 : A ∈ stageOut (key_first_1k fs) (filter_files_by_size fs paths) :=
    mem_stageOut.mpr ⟨c.take 1024, hk2A, hAs1, hbucket2⟩
  have hBs2 : B ∈ stageOut (key_first_1k fs) (filter_files_by_size fs paths) :=
    mem_stageOut.mpr ⟨c.take 1024, hk2B, hBs1, hbucket2⟩
  have hk3A := key_full_of_content hcA
  have hk3B := key_full_of_content hcB
  have hAb : A ∈ (stageOut (key_first_1k fs)
      (filter_files_by_size fs paths)).filter
        (fun y => decide (key_full fs y = some c)) :=
    List.mem_filter.mpr ⟨hAs2, by simp [hk3A]⟩
  have hBb : B ∈ (stageOut (key_first_1k fs)
      (filter_files_by_size fs paths)).filter
        (fun y => decide (key_full fs y = some c)) :=
    List.mem_filter.mpr ⟨hBs2, by simp [hk3B]⟩
  have hne : lookupG c (groupByKey (key_full fs)
      (stageOut (key_first_1k fs) (filter_files_by_size fs paths))) ≠ [] := by
    rw [lookupG_groupByKey]
    exact List.ne_nil_of_mem hAb
  obtain ⟨g, hgmem⟩ := exists_of_mem_keysOf (mem_keysOf_of_lookupG_ne hne)
  have hgf : g = (stageOut (key_first_1k fs)
      (filter_files_by_size fs paths)).filter
        (fun y => decide (key_full fs y = some c)) :=
    snd_eq_filter_of_mem_groupByKey hgmem
  have hAg : A ∈ g := by rw [hgf]; exact hAb
  have hBg : B ∈ g := by rw [hgf]; exact hBb
  refine ⟨g, ?_, hAg, hBg⟩
  apply List.mem_filter.mpr
  refine ⟨List.mem_map.mpr ⟨(c, g), hgmem, rfl⟩, ?_⟩
  simpa using one_lt_length_of_two_mem hAg hBg hAB

/-- Witness for C2 at two concrete one-byte duplicates. -/
theorem c2_witness :
    ("a" : String) ≠ "b" ∧ fsAB "a" = some [1] ∧ fsAB "b" = some [1] ∧
    ∃ g ∈ dup_groups fsAB ["a", "b"], "a" ∈ g ∧ "b" ∈ g :=
  ⟨by decide, by decide, by decide,
    c2_identical_content_same_group fsAB ["a", "b"] "a" "b" [1] (by decide)
      (by decide) (by decide) (by decide) (by decide) (by decide)⟩

set_option maxRecDepth 100000 in
/-- C3 counterexample: `a1` (1025 bytes) and `b1` (1026 bytes) have
different sizes, yet after each survives the size stage (thanks to its
same-size twin) they land in the *same* partial-fingerprint-stage group,
because their first 1024 bytes coincide — refuting "never placed in the same
group at any pipeline stage". -/
theorem c3_counterexample_first1k_stage :
    get_file_size fsPfx "a1" ≠ get_file_size fsPfx "b1" ∧
    ∃ g ∈ (groupByKey (key_first_1k fsPfx)
        (filter_files_by_size fsPfx ["a1", "a2", "b1", "b2"])).map Prod.snd,
      "a1" ∈ g ∧ "b1" ∈ g := by decide

/-- C3 (amended): files of different sizes never share a size-stage group
and never share a reported full-fingerprint group; they can, however, share
a partial-fingerprint-stage group when their first 1024 bytes agree (see the
counterexample). -/
theorem c3_different_sizes_not_grouped (fs : FS) (paths : List String)
    (A B : String) :
    (∀ q ∈ groupByKey (key_size fs) paths, A ∈ q.2 → B ∈ q.2 →
        get_file_size fs A = get_file_size fs B) ∧
    (∀ g ∈ dup_groups fs paths, A ∈ g → B ∈ g →
        get_file_size fs A = get_file_size fs B) := by
  constructor
  · intro q hq hA hB
    have hchar := snd_eq_filter_of_mem_groupByKey hq
    rw [hchar] at hA hB
    have h1 := (List.mem_filter.mp hA).2
    have h2 := (List.mem_filter.mp hB).2
    simp only [decide_eq_true_eq] at h1 h2
    rw [get_file_size_of_key_size h1, get_file_size_of_key_size h2]
  · intro g hg hA hB
    obtain ⟨-, kf, hgf⟩ := dup_groups_char hg
    rw [hgf] at hA hB
    have h1 := (List.mem_filter.mp hA).2
    have h2 := (List.mem_filter.mp hB).2
    simp only [decide_eq_true_eq] at h1 h2
    exact size_eq_of_key_full_eq (h1.trans h2.symm)

/-- Witness for C3 at the concrete duplicate pair: both conjuncts of the
amended claim applied to the reported group of `fsAB`. -/
theorem c3_witness :
    get_file_size fsAB "a" = get_file_size fsAB "b" :=
  (c3_different_sizes_not_grouped fsAB ["a", "b"] "a" "b").2
    ["a", "b"] (by decide) (by decide) (by decide)

/-- C4: the pipeline only narrows — each stage's survivors come from its
input, every survivor shares its discriminator with at least one other file
kept by that stage, and every reported group has at least two members (all
sharing the full-content discriminator); singleton groups are never
reported. -/
theorem c4_pipeline_invariants (fs : FS) (paths : List String) :
    (∀ x ∈ filter_files_by_size fs paths, x ∈ paths ∧
        1 < ((filter_files_by_size fs paths).filter
          (fun y => decide (key_size fs y = key_size fs x))).length) ∧
    (∀ x ∈ stageOut (key_first_1k fs) (filter_files_by_size fs paths),
        x ∈ filter_files_by_size fs paths ∧
        1 < ((stageOut (key_first_1k fs)
            (filter_files_by_size fs paths)).filter
          (fun y => decide (key_first_1k fs y = key_first_1k fs x))).length) ∧
    (∀ g ∈ dup_groups fs paths, 2 ≤ g.length ∧
        (∀ x ∈ g,
          x ∈ stageOut (key_first_1k fs) (filter_files_by_size fs paths)) ∧
        ∀ x ∈ g, ∀ y ∈ g, key_full fs x = key_full fs y) := by
  refine ⟨?_, ?_, ?_⟩
  · intro x hx
    exact stage_invariant (key_size fs) paths x hx
  · intro x hx
    exact stage_invariant (key_first_1k fs)
      (filter_files_by_size fs paths) x hx
  · intro g hg
    obtain ⟨hlen, kf, hgf⟩ := dup_groups_char hg
    refine ⟨by omega, ?_, ?_⟩
    · intro x hx
      rw [hgf] at hx
      exact (List.mem_filter.mp hx).1
    · intro x hx y hy
      rw [hgf] at hx hy
      have h1 := (List.mem_filter.mp hx).2
      have h2 := (List.mem_filter.mp hy).2
      simp only [decide_eq_true_eq] at h1 h2
      rw [h1, h2]

/-- Witness for C4: concrete consequences of the invariants at `fsAB`. -/
theorem c4_witness :
    ("a" ∈ (["a", "b"] : List String)) ∧
    2 ≤ (["a", "b"] : List String).length ∧
    key_full fsAB "a" = key_full fsAB "b" := by
  have h := c4_pipeline_invariants fsAB ["a", "b"]
  have h1 := (h.1 "a" (by decide)).1
  have h3 := h.2.2 ["a", "b"] (by decide)
  exact ⟨h1, h3.1, h3.2.2 "a" (by decide) "b" (by decide)⟩

/-- C8: every reported duplicate group is a sublist of the enumerated input
list — within a group, files appear in the order they were first
encountered, preserved end to end through all three stages. -/
theorem c8_group_preserves_enumeration_order (fs : FS)
    (paths : List String) (g : List String)
    (hg : g ∈ dup_groups fs paths) : List.Sublist g paths := by
  obtain ⟨hlen, kf, hgf⟩ := dup_groups_char hg
  have hdet2 : ∀ y, (fun y => decide (key_full fs y = some kf)) y = true →
      key_first_1k fs y = some (kf.take 1024) := by
    intro y hy
    rw [decide_eq_true_eq] at hy
    exact key_first_1k_of_content ((key_full_eq fs y).symm.trans hy)
  have h2 := filter_stageOut (key_first_1k fs)
    (filter_files_by_size fs paths)
    (fun y => decide (key_full fs y = some kf)) (kf.take 1024) hdet2
  rw [h2] at hgf
  by_cases hkept2 : 1 < ((filter_files_by_size fs paths).filter
      (fun x => decide (key_first_1k fs x = some (List.take 1024 kf)))).length
  · rw [if_pos hkept2] at hgf
    by_cases hkf : kf = []
    · have hnil : (filter_files_by_size fs paths).filter
          (fun y => decide (key_full fs y = some kf)) = [] := by
        apply List.filter_eq_nil_iff.mpr
        intro a ha hpa
        rw [decide_eq_true_eq] at hpa
        have hfa : fs a = some kf := (key_full_eq fs a).symm.trans hpa
        rw [hkf] at hfa
        exact not_mem_stageOut_of_none (key_size_none_of_empty hfa) ha
      rw [hnil] at hgf
      rw [hgf] at hlen
      simp at hlen
    · have hdet1 : ∀ y,
          (fun y => decide (key_full fs y = some kf)) y = true →
          key_size fs y = some kf.length := by
        intro y hy
        rw [decide_eq_true_eq] at hy
        exact key_size_of_content ((key_full_eq fs y).symm.trans hy) hkf
      have h1 := filter_stageOut (key_size fs) paths
        (fun y => decide (key_full fs y = some kf)) kf.length hdet1
      simp only [filter_files_by_size] at hgf
      rw [h1] at hgf
      by_cases hkept1 : 1 < (paths.filter
          (fun x => decide (key_size fs x = some kf.length))).length
      · rw [if_pos hkept1] at hgf
        rw [hgf]
        exact List.filter_sublist paths
      · rw [if_neg hkept1] at hgf
        rw [hgf] at hlen
        simp at hlen
  · rw [if_neg hkept2] at hgf
    rw [hgf] at hlen
    simp at hlen

/-- Witness for C8 at the concrete reported group of `fsAB`. -/
theorem c8_witness :
    (["a", "b"] ∈ dup_groups fsAB ["a", "b"]) ∧
      List.Sublist ["a", "b"] ["a", "b"] :=
  ⟨by decide, c8_group_preserves_enumeration_order fsAB ["a", "b"]
    ["a", "b"] (by decide)⟩

/-- C9: the enumerated list handed to the pipeline is the plain
concatenation of the per-root listings with no deduplication, so a path that
occurs at least twice (for example because the same root was supplied
twice), pointing at a readable non-empty file, is reported inside a
duplicate group that contains that very path at least twice — the file is a
duplicate of itself. -/
theorem c9_duplicate_path_reported_twice (enum : String → List String)
    (roots : List String) (fs : FS) (p : String) (c : Bytes)
    (h2 : 2 ≤ ((roots.map enum).flatten).count p)
    (hc : fs p = some c) (hne : c ≠ []) :
    ∃ g ∈ dup_groups fs ((roots.map enum).flatten), 2 ≤ g.count p := by
  have hk1 := key_size_of_content hc hne
  have hk2 := key_first_1k_of_content hc
  have hk3 := key_full_of_content hc
  set paths := (roots.map enum).flatten with hpaths
  have hcf1 : (paths.filter
      (fun y => decide (key_size fs y = some c.length))).count p =
      paths.count p :=
    List.count_filter (by simp [hk1])
  have hb1 : 1 < (paths.filter
      (fun y => decide (key_size fs y = some c.length))).length := by
    have hle := List.count_le_length p (paths.filter
      (fun y => decide (key_size fs y = some c.length)))
    omega
  have hc1 : (filter_files_by_size fs paths).count p = paths.count p := by
    have hcs := count_stageOut paths p c.length hk1
    rw [filter_files_by_size, hcs, if_pos hb1]
  have hcf2 : ((filter_files_by_size fs paths).filter
      (fun y => decide (key_first_1k fs y = some (c.take 1024)))).count p =
      (filter_files_by_size fs paths).count p :=
    List.count_filter (by simp [hk2])
  have hb2 : 1 < ((filter_files_by_size fs paths).filter
      (fun y => decide (key_first_1k fs y = some (c.take 1024)))).length := by
    have hle := List.count_le_length p ((filter_files_by_size fs paths).filter
      (fun y => decide (key_first_1k fs y = some (c.take 1024))))
    omega
  have hc2 : (stageOut (key_first_1k fs)
      (filter_files_by_size fs paths)).count p =
      (filter_files_by_size fs paths).count p := by
    have hcs := count_stageOut (filter_files_by_size fs paths) p
      (c.take 1024) hk2
    rw [hcs, if_pos hb2]
  have hcb : ((stageOut (key_first_1k fs)
      (filter_files_by_size fs paths)).filter
        (fun y => decide (key_full fs y = some c))).count p =
      (stageOut (key_first_1k fs)
        (filter_files_by_size fs paths)).count p :=
    List.count_filter (by simp [hk3])
  have hcount : 2 ≤ ((stageOut (key_first_1k fs)
      (filter_files_by_size fs paths)).filter
        (fun y => decide (key_full fs y = some c))).count p := by
    omega
  have hpmem : p ∈ (stageOut (key_first_1k fs)
      (filter_files_by_size fs paths)).filter
        (fun y => decide (key_full fs y = some c)) :=
    List.count_pos_iff.mp (by omega)
  have hnenil : lookupG c (groupByKey (key_full fs)
      (stageOut (key_first_1k fs) (filter_files_by_size fs paths))) ≠ [] := by
    rw [lookupG_groupByKey]
    exact List.ne_nil_of_mem hpmem
  obtain ⟨g, hgmem⟩ := exists_of_mem_keysOf (mem_keysOf_of_lookupG_ne hnenil)
  have hgf : g = (stageOut (key_first_1k fs)
      (filter_files_by_size fs paths)).filter
        (fun y => decide (key_full fs y = some c)) :=
    snd_eq_filter_of_mem_groupByKey hgmem
  have hgcount : 2 ≤ g.count p := by
    rw [hgf]
    exact hcount
  refine ⟨g, ?_, hgcount⟩
  apply List.mem_filter.mpr
  refine ⟨List.mem_map.mpr ⟨(c, g), hgmem, rfl⟩, ?_⟩
  have hle := List.count_le_length p g
  simp only [decide_eq_true_eq]
  omega

/-- Witness for C9: the same root twice, one readable one-byte file. -/
theorem c9_witness :
    2 ≤ ((["r", "r"].map enumA).flatten).count "a" ∧
    ∃ g ∈ dup_groups fsA1 ((["r", "r"].map enumA).flatten),
      2 ≤ g.count "a" :=
  ⟨by decide, c9_duplicate_path_reported_twice enumA ["r", "r"] fsA1 "a" [1]
    (by decide) (by decide) (by decide)⟩

/-- C10: the printed size of a group is re-read from the group's first file
at reporting time (second conjunct: the size line is computed from the
filesystem passed to `print_duplicates`, not from anything cached at the
size stage); if that first file has become unreadable by then,
`get_file_size` returns `None`, `file_size_string(None)` raises (`None` is
compared against `1000`), and the run aborts during output instead of
printing the group (first conjunct). -/
theorem c10_report_rereads_size (fs : FS) (groups : List (List String))
    (hne : ∀ g ∈ groups, g ≠ []) :
    ((∃ g ∈ groups, get_file_size fs (g.headD "") = none) →
        print_duplicates fs groups = .error ()) ∧
    ((∀ g ∈ groups, get_file_size fs (g.headD "") ≠ none) →
        print_duplicates fs groups = .ok (groups.flatMap (fun g =>
          "Found duplicate files:" ::
            ("Size:  " ++ file_size_string
              ((get_file_size fs (g.headD "")).getD 0)) :: g))) := by
  induction groups with
  | nil =>
    constructor
    · rintro ⟨g, hg, -⟩
      cases hg
    · intro
      rfl
  | cons g rest ih =>
    have ihr := ih (fun x hx => hne x (List.mem_cons_of_mem _ hx))
    cases g with
    | nil => exact absurd rfl (hne [] (List.mem_cons_self _ _))
    | cons f0 gt =>
      constructor
      · rintro ⟨g', hg', hnone⟩
        rcases List.mem_cons.mp hg' with rfl | hmem
        · have h0 : get_file_size fs f0 = none := by simpa using hnone
          simp [print_duplicates, h0]
        · cases hsz : get_file_size fs f0 with
          | none => simp [print_duplicates, hsz]
          | some sz =>
            have herr := ihr.1 ⟨g', hmem, hnone⟩
            simp [print_duplicates, hsz, herr]
      · intro hall
        cases hsz : get_file_size fs f0 with
        | none =>
          have := hall (f0 :: gt) (List.mem_cons_self _ _)
          simp [hsz] at this
        | some sz =>
          have hok := ihr.2 (fun x hx => hall x (List.mem_cons_of_mem _ hx))
          simp [print_duplicates, hsz, hok]

/-- Witness for C10: an unreadable first file aborts the output; a readable
one yields the size line recomputed from the reporting-time filesystem. -/
theorem c10_witness :
    print_duplicates fsNone [["a", "b"]] = .error () ∧
    print_duplicates fsAB [["a", "b"]] =
      .ok ([["a", "b"]].flatMap (fun g =>
        "Found duplicate files:" ::
          ("Size:  " ++ file_size_string
            ((get_file_size fsAB (g.headD "")).getD 0)) :: g)) :=
  ⟨(c10_report_rereads_size fsNone [["a", "b"]] (by decide)).1
      ⟨["a", "b"], by decide, by decide⟩,
    (c10_report_rereads_size fsAB [["a", "b"]] (by decide)).2 (by decide)⟩
